import Mathlib

/-
  Verification of the Chain repository (a UTXO-based proof-of-work ledger).

  Shallow embedding notes:
  * Monetary amounts and timestamps are modelled as rationals; the reference
    uses binary floats with explicit rounding at 8 decimal places at the
    boundaries, modelled here by `rnd8` (round half to even, as Python round).
  * The external cryptographic library functions (hashlib sha256, ecdsa sign
    and verify, the address hash of a public key) are not part of the
    repository; they are abstracted as the fields of a `Crypto` parameter, so
    every theorem below holds for every choice of those primitives.
  * Python dictionaries are modelled as insertion-ordered association lists
    with unique keys, matching dict iteration order and dict mutation.
  * Methods that in Python mutate an object and return a flag are modelled as
    pure functions returning the flag together with the new state; an early
    `return False` is a branch that returns the unchanged state.
-/

/-- Association-list lookup, the model of a Python dict read. -/
def alookup {α β : Type} [DecidableEq α] (k : α) : List (α × β) → Option β
  | [] => none
  | p :: rest => if p.1 = k then some p.2 else alookup k rest

/-- Round half to even over the rationals, the model of Python round on the
exactly representable values used by the repository. -/
def roundHalfEven (x : ℚ) : ℤ :=
  let f : ℤ := ⌊x⌋
  let r : ℚ := x - f
  if r < 1/2 then f
  else if 1/2 < r then f + 1
  else if f % 2 = 0 then f else f + 1

/-- Models Python round(x, 8): rounding to 8 decimal places, half to even. -/
def rnd8 (x : ℚ) : ℚ :=
  (roundHalfEven (x * 100000000) : ℚ) / 100000000

/-- The abstracted external cryptographic primitives (hashlib and ecdsa):
sha256 hex digest of the UTF-8 bytes of a string, the address derivation
sha256(bytes.fromhex(pub)).hexdigest() of blockchain/utils.py, signature
verification, and signing. The repository only composes them, so all the
theorems below are parametric in this structure. -/
structure Crypto where
  sha256hex : String → String
  public_key_to_address : String → String
  verify : String → String → String → Bool
  sign : String → String → String

/-- The dynamic value of an unlock script: either a Python dict from string
keys to string values, or some non-dict value (the isinstance check in the
sources distinguishes exactly these two cases). -/
inductive UScript where
  | dict (entries : List (String × String))
  | nonDict
deriving DecidableEq

/-- True when the unlock script passes the isinstance(_, dict) check. -/
def UScript.isDict : UScript → Bool
  | .dict _ => true
  | .nonDict => false

/-- The signature field of an unlock script, when present. -/
def scriptSig : UScript → Option String
  | .dict entries => alookup "signature" entries
  | .nonDict => none

/-- The public-key field of an unlock script, when present. -/
def scriptPub : UScript → Option String
  | .dict entries => alookup "public_key" entries
  | .nonDict => none

/-- blockchain/transaction.py TransactionOutput: an amount locked to an
address. -/
structure TransactionOutput where
  amount : ℚ
  lock_script : String
deriving DecidableEq

/-- blockchain/transaction.py TransactionInput: a reference to a previous
output together with the unlock script. -/
structure TransactionInput where
  transaction_id : String
  output_index : Int
  unlock_script : UScript
deriving DecidableEq

/-- blockchain/transaction.py Transaction: inputs, outputs and the stored
transaction id. -/
structure Transaction where
  inputs : List TransactionInput
  outputs : List TransactionOutput
  transaction_id : String
deriving DecidableEq

/-- COINBASE_TX_ID of blockchain/transaction.py: sixty-four zero hex
characters, written there as a 64-fold repetition of the zero digit. -/
def COINBASE_TX_ID : String := String.mk (List.replicate 64 '0')

/-- COINBASE_OUTPUT_INDEX of blockchain/transaction.py. -/
def COINBASE_OUTPUT_INDEX : Int := -1

/-- Transaction._is_coinbase_data: exactly one input, referencing the null
transaction id at index -1. -/
def Transaction.is_coinbase_data (tx_inputs : List TransactionInput) : Bool :=
  match tx_inputs with
  | [i] => i.transaction_id == COINBASE_TX_ID && i.output_index == COINBASE_OUTPUT_INDEX
  | _ => false

/-- Transaction.is_coinbase. -/
def Transaction.is_coinbase (tx : Transaction) : Bool :=
  Transaction.is_coinbase_data tx.inputs

/-- The (prev_tx_id, prev_output_index) reference carried by an input. -/
def inputRef (i : TransactionInput) : String × Int :=
  (i.transaction_id, i.output_index)

/-- Models the JSON encoding of a string; the strings serialized by the
repository (hex digests, addresses, hex signatures) contain no character
needing an escape. -/
def jsonStr (s : String) : String := "\"" ++ s ++ "\""

/-- Models the textual form json.dumps gives the numeric amount. The exact
digits are never observed by any property below; only injective determinism
of the overall encoding shape is. -/
def jsonNum (q : ℚ) : String := toString q

/-- JSON object for one input reference, keys sorted as json.dumps with
sort_keys does (output_index before transaction_id). -/
def refJson (transaction_id : String) (output_index : Int) : String :=
  "\x7b\"output_index\":" ++ toString output_index ++
    ",\"transaction_id\":" ++ jsonStr transaction_id ++ "\x7d"

/-- The input-reference object of TransactionInput used by the regular TXID
data and by get_data_to_sign. -/
def inputRefJson (i : TransactionInput) : String :=
  refJson i.transaction_id i.output_index

/-- JSON object for one output, keys sorted (amount before lock_script). -/
def outputJson (o : TransactionOutput) : String :=
  "\x7b\"amount\":" ++ jsonNum o.amount ++ ",\"lock_script\":" ++ jsonStr o.lock_script ++ "\x7d"

/-- Sorted insertion of a dict entry by key, used to model the sort_keys
option of json.dumps on the unlock-script dict. -/
def insertEntry (p : String × String) : List (String × String) → List (String × String)
  | [] => [p]
  | q :: rest =>
    match compare q.1 p.1 with
    | .lt => q :: insertEntry p rest
    | _ => p :: q :: rest

/-- Dict entries in ascending key order, as json.dumps with sort_keys
serializes them. -/
def sortEntries (es : List (String × String)) : List (String × String) :=
  es.foldr insertEntry []

/-- JSON encoding of an unlock-script value (only used in the coinbase TXID
branch; coinbase unlock scripts are dicts on every path of the sources). -/
def scriptJson : UScript → String
  | .dict es => "\x7b" ++ String.intercalate "," ((sortEntries es).map (fun p => jsonStr p.1 ++ ":" ++ jsonStr p.2)) ++ "\x7d"
  | .nonDict => "null"

/-- JSON array from already-encoded elements. -/
def listJson (items : List String) : String :=
  "[" ++ String.intercalate "," items ++ "]"

/-- Full input object including the unlock script, used only by the coinbase
TXID branch; keys in sorted order. -/
def inputFullJson (i : TransactionInput) : String :=
  "\x7b\"output_index\":" ++ toString i.output_index ++
    ",\"transaction_id\":" ++ jsonStr i.transaction_id ++
    ",\"unlock_script\":" ++ scriptJson i.unlock_script ++ "\x7d"

/-- The canonical JSON string over input references and outputs: the regular
branch of Transaction._calculate_transaction_id and, identically, the string
returned by Transaction.get_data_to_sign. -/
def regularTxDataString (tx_inputs : List TransactionInput) (tx_outputs : List TransactionOutput) : String :=
  "\x7b\"inputs\":" ++ listJson (tx_inputs.map inputRefJson) ++
    ",\"outputs\":" ++ listJson (tx_outputs.map outputJson) ++ "\x7d"

/-- The canonical JSON string including full inputs: the coinbase branch of
Transaction._calculate_transaction_id. -/
def coinbaseTxDataString (tx_inputs : List TransactionInput) (tx_outputs : List TransactionOutput) : String :=
  "\x7b\"inputs\":" ++ listJson (tx_inputs.map inputFullJson) ++
    ",\"outputs\":" ++ listJson (tx_outputs.map outputJson) ++ "\x7d"

/-- Transaction._calculate_transaction_id: hash the canonical JSON of the
transaction data; coinbase transactions include the unlock scripts, regular
transactions only the input references and the outputs. -/
def Transaction.calculate_transaction_id (sha256hex : String → String)
    (tx_inputs : List TransactionInput) (tx_outputs : List TransactionOutput) : String :=
  if Transaction.is_coinbase_data tx_inputs then
    sha256hex (coinbaseTxDataString tx_inputs tx_outputs)
  else
    sha256hex (regularTxDataString tx_inputs tx_outputs)

/-- Transaction.get_data_to_sign: the canonical JSON over input references
and outputs, excluding unlock scripts. -/
def Transaction.get_data_to_sign (tx : Transaction) : String :=
  regularTxDataString tx.inputs tx.outputs

/-- Transaction.__init__ as a fallible constructor: rejects empty inputs or
outputs, and stores the given transaction id when it is non-falsy, computing
it otherwise. -/
def Transaction.make (sha256hex : String → String)
    (tx_inputs : List TransactionInput) (tx_outputs : List TransactionOutput)
    (tx_id : Option String) : Except String Transaction :=
  if tx_inputs = [] then
    .error "Transaction must have at least one input (even for coinbase)"
  else if tx_outputs = [] then
    .error "Transaction must have at least one output"
  else
    let the_id : String :=
      match tx_id with
      | some given => if given = "" then Transaction.calculate_transaction_id sha256hex tx_inputs tx_outputs else given
      | none => Transaction.calculate_transaction_id sha256hex tx_inputs tx_outputs
    .ok ⟨tx_inputs, tx_outputs, the_id⟩

/-- Duplicate the last element when the level size is odd
(blockchain/utils.py calculate_merkle_root, the padding step). -/
def padEven (current_level : List String) : List String :=
  if current_level.length % 2 ≠ 0 then
    match current_level.getLast? with
    | some last => current_level ++ [last]
    | none => current_level
  else current_level

/-- Hash adjacent pairs, concatenating the two hex strings and hashing the
UTF-8 bytes of the concatenation (blockchain/utils.py, the pairing step). -/
def pairHash (sha256hex : String → String) : List String → List String
  | a :: b :: rest => sha256hex (a ++ b) :: pairHash sha256hex rest
  | _ => []

/-- One level of the Merkle loop: pad to even size, then hash pairs. -/
def nextLevel (sha256hex : String → String) (current_level : List String) : List String :=
  pairHash sha256hex (padEven current_level)

/-- The while loop of calculate_merkle_root, with explicit fuel. Each pass at
least halves the level, so length many passes always suffice; the fuel
irrelevance lemma below shows the result does not depend on the bound. -/
def merkleLoop (sha256hex : String → String) : Nat → List String → String
  | 0, current_level => current_level.headD ""
  | fuel + 1, current_level =>
    if 2 ≤ current_level.length then
      merkleLoop sha256hex fuel (nextLevel sha256hex current_level)
    else current_level.headD ""

/-- blockchain/utils.py calculate_merkle_root: the hash of the empty byte
string for an empty list, otherwise the iterated level reduction. -/
def calculate_merkle_root (sha256hex : String → String) (transaction_ids : List String) : String :=
  if transaction_ids = [] then sha256hex ""
  else merkleLoop sha256hex transaction_ids.length transaction_ids

/-- A UTXO key: (transaction_id, output_index), as in blockchain/utxo.py. -/
abbrev UTXOKey := String × Int

/-- The UTXO key referenced by an input. -/
def inputKey (inp : TransactionInput) : UTXOKey :=
  (inp.transaction_id, inp.output_index)

/-- blockchain/utxo.py UTXOSet.utxos: a Python dict from keys to outputs,
modelled as an insertion-ordered association list with unique keys. -/
abbrev UTXOSet := List (UTXOKey × TransactionOutput)

/-- UTXOSet.get_utxo: dict lookup without removal. -/
def UTXOSet.get_utxo (u : UTXOSet) (tx_id : String) (index : Int) : Option TransactionOutput :=
  alookup (tx_id, index) u

/-- UTXOSet.add_utxo: dict assignment; an existing key keeps its position
and has its value overwritten, a new key is appended. -/
def UTXOSet.add_utxo (u : UTXOSet) (tx_id : String) (index : Int) (output : TransactionOutput) : UTXOSet :=
  match u with
  | [] => [((tx_id, index), output)]
  | p :: rest =>
    if p.1 = (tx_id, index) then ((tx_id, index), output) :: rest
    else p :: UTXOSet.add_utxo rest tx_id index output

/-- UTXOSet.remove_utxo: dict pop of the key, keeping the rest in order. -/
def UTXOSet.remove_utxo (u : UTXOSet) (tx_id : String) (index : Int) : UTXOSet :=
  match u with
  | [] => []
  | p :: rest =>
    if p.1 = (tx_id, index) then rest
    else p :: UTXOSet.remove_utxo rest tx_id index

/-- UTXOSet.find_utxos_for_address: dict-ordered filter by lock script. -/
def UTXOSet.find_utxos_for_address (u : UTXOSet) (address : String) : List (UTXOKey × TransactionOutput) :=
  u.filter (fun p => p.2.lock_script == address)

/-- blockchain/block.py Block: header fields plus the transaction list. The
constructor recomputation of a missing merkle root or hash is not needed by
any claim; blocks here always carry their stored fields, as blocks loaded
with Block.from_dict do. -/
structure Block where
  index : Int
  transactions : List Transaction
  timestamp : ℚ
  previous_hash : String
  nonce : Int
  merkle_root : String
  hash : String
deriving DecidableEq

/-- UTXOSet.update_from_block: in transaction list order, remove the inputs
of each non-coinbase transaction, then add every output of the transaction
under its enumeration index. -/
def UTXOSet.update_from_block (u : UTXOSet) (block : Block) : UTXOSet :=
  block.transactions.foldl
    (fun s tx =>
      let s1 :=
        if tx.is_coinbase then s
        else tx.inputs.foldl (fun s2 inp => UTXOSet.remove_utxo s2 inp.transaction_id inp.output_index) s
      (tx.outputs.enum).foldl (fun s2 p => UTXOSet.add_utxo s2 tx.transaction_id (Int.ofNat p.1) p.2) s1)
    u

/-- UTXOSet.rebuild: clear the set, then replay update_from_block over every
block of the chain from genesis. The argument set is discarded by clear. -/
def UTXOSet.rebuild (_u : UTXOSet) (blocks : List Block) : UTXOSet :=
  blocks.foldl (fun s b => UTXOSet.update_from_block s b) []

/-- The input loop of Chain.validate_transaction: per input, reject a UTXO
key already spent inside this transaction, a missing UTXO, a malformed
unlock script, a public key that does not hash to the lock script of the
referenced output, and a failing signature; accumulate the input value and
the spent keys. Returns the total input value on success. -/
def validateInputs (c : Crypto) (utxo_set : UTXOSet) (data_to_sign : String) :
    List TransactionInput → List UTXOKey → ℚ → Option ℚ
  | [], _, total_input_value => some total_input_value
  | inp :: rest, spent_utxo_keys, total_input_value =>
    if inputKey inp ∈ spent_utxo_keys then none
    else
      match UTXOSet.get_utxo utxo_set inp.transaction_id inp.output_index with
      | none => none
      | some spent_utxo =>
        match inp.unlock_script with
        | .nonDict => none
        | .dict entries =>
          match alookup "signature" entries, alookup "public_key" entries with
          | some signature_hex, some pub_key_hex =>
            if spent_utxo.lock_script ≠ c.public_key_to_address pub_key_hex then none
            else if c.verify pub_key_hex data_to_sign signature_hex = false then none
            else validateInputs c utxo_set data_to_sign rest
              (spent_utxo_keys ++ [inputKey inp]) (total_input_value + spent_utxo.amount)
          | _, _ => none

/-- The output loop of Chain.validate_transaction: reject a negative amount,
accumulate the total output value. -/
def checkOutputs : List TransactionOutput → ℚ → Option ℚ
  | [], total_output_value => some total_output_value
  | out :: rest, total_output_value =>
    if out.amount < 0 then none
    else checkOutputs rest (total_output_value + out.amount)

/-- Chain.validate_transaction of blockchain/chain.py. The unused
check_not_in_set parameter of the source is omitted; the UTXO set argument
is only read (get_utxo), never written. Returns (is_valid, fee). -/
def Chain.validate_transaction (c : Crypto) (utxo_set : UTXOSet) (transaction : Transaction) : Bool × ℚ :=
  if transaction.is_coinbase then (false, 0)
  else
    let data_to_sign := transaction.get_data_to_sign
    if transaction.inputs = [] then (false, 0)
    else
      match validateInputs c utxo_set data_to_sign transaction.inputs [] 0 with
      | none => (false, 0)
      | some total_input_value =>
        if transaction.outputs = [] then (false, 0)
        else
          match checkOutputs transaction.outputs 0 with
          | none => (false, 0)
          | some total_output_value =>
            let fee := rnd8 (total_input_value - total_output_value)
            if fee < 0 then (false, 0) else (true, fee)

/-- The per-transaction effect applied to the temporary UTXO set inside the
block-validation loop of Chain.add_block: remove every input key, then add
every output under its enumeration index. -/
def applyTxToSet (s : UTXOSet) (tx : Transaction) : UTXOSet :=
  let s1 := tx.inputs.foldl (fun s2 inp => UTXOSet.remove_utxo s2 inp.transaction_id inp.output_index) s
  (tx.outputs.enum).foldl (fun s2 p => UTXOSet.add_utxo s2 tx.transaction_id (Int.ofNat p.1) p.2) s1

/-- The transaction loop of Chain.add_block over the temporary copy of the
UTXO set: a coinbase transaction must be first and is otherwise skipped and
counted; every other transaction must pass Chain.validate_transaction
against the evolving temporary set, whose state then absorbs the
transaction effects. Returns the final temporary set, the total fees and
the coinbase count. -/
def processTxs (c : Crypto) : List Transaction → Nat → UTXOSet → ℚ → Nat → Option (UTXOSet × ℚ × Nat)
  | [], _, temp_utxo_set, total_fees, coinbase_tx_count =>
    some (temp_utxo_set, total_fees, coinbase_tx_count)
  | tx :: rest, i, temp_utxo_set, total_fees, coinbase_tx_count =>
    if tx.is_coinbase then
      if i ≠ 0 then none
      else processTxs c rest (i + 1) temp_utxo_set total_fees (coinbase_tx_count + 1)
    else
      let v := Chain.validate_transaction c temp_utxo_set tx
      if v.1 = false then none
      else processTxs c rest (i + 1) (applyTxToSet temp_utxo_set tx) (total_fees + v.2) coinbase_tx_count

/-- The body of Chain.add_block after the link checks: header validation,
non-empty transaction list, Merkle root recomputation, the transaction loop
over a copy of the UTXO set (the copy is the value itself in this pure
model), the single-coinbase check, and on success the commit that appends
the block and applies update_from_block to the real UTXO set. -/
def Chain.add_block_body (c : Crypto) (validate_block_header : Block → Bool)
    (blocks : List Block) (utxo_set : UTXOSet) (block : Block) : Bool × List Block × UTXOSet :=
  if validate_block_header block = false then (false, blocks, utxo_set)
  else if block.transactions = [] then (false, blocks, utxo_set)
  else if block.merkle_root ≠ calculate_merkle_root c.sha256hex (block.transactions.map Transaction.transaction_id) then
    (false, blocks, utxo_set)
  else
    match processTxs c block.transactions 0 utxo_set 0 0 with
    | none => (false, blocks, utxo_set)
    | some (_, _, coinbase_tx_count) =>
      if coinbase_tx_count ≠ 1 then (false, blocks, utxo_set)
      else (true, blocks ++ [block], UTXOSet.update_from_block utxo_set block)

/-- Chain.add_block of blockchain/chain.py: the link checks against the
last block (or the genesis conditions when the chain is empty), then the
body above. The consensus object only enters through its
validate_block_header method, passed here as a function. The flag is True
exactly when the block was appended. -/
def Chain.add_block (c : Crypto) (validate_block_header : Block → Bool)
    (blocks : List Block) (utxo_set : UTXOSet) (block : Block) : Bool × List Block × UTXOSet :=
  match blocks.getLast? with
  | some last_block =>
    if block.previous_hash ≠ last_block.hash then (false, blocks, utxo_set)
    else if block.index ≠ last_block.index + 1 then (false, blocks, utxo_set)
    else Chain.add_block_body c validate_block_header blocks utxo_set block
  | none =>
    if block.index ≠ 0 then (false, blocks, utxo_set)
    else if block.previous_hash ≠ COINBASE_TX_ID then (false, blocks, utxo_set)
    else Chain.add_block_body c validate_block_header blocks utxo_set block

/-- blockchain/mempool.py Mempool: pending transactions keyed by id (a
Python dict, insertion ordered) and the capacity bound. -/
structure Mempool where
  pending_transactions : List (String × Transaction)
  max_size : Nat
deriving DecidableEq

/-- Mempool._validate_transaction_basic: reject coinbase, empty inputs or
outputs, and any input whose unlock script is not a dict carrying a
signature and public key that verifies against get_data_to_sign. -/
def Mempool.validate_transaction_basic (c : Crypto) (transaction : Transaction) : Bool :=
  if transaction.is_coinbase then false
  else if transaction.inputs = [] then false
  else if transaction.outputs = [] then false
  else
    let data_to_sign := transaction.get_data_to_sign
    transaction.inputs.all (fun inp =>
      match inp.unlock_script with
      | .nonDict => false
      | .dict entries =>
        match alookup "signature" entries, alookup "public_key" entries with
        | some sig_hex, some pub_key_hex => c.verify pub_key_hex data_to_sign sig_hex
        | _, _ => false)

/-- Mempool.add_transaction: reject a present id, a full pool, or a failing
basic validation; otherwise insert keyed by the transaction id. The UTXO
set is not an input of this decision. -/
def Mempool.add_transaction (c : Crypto) (mp : Mempool) (transaction : Transaction) : Bool × Mempool :=
  if (alookup transaction.transaction_id mp.pending_transactions).isSome then (false, mp)
  else if mp.max_size ≤ mp.pending_transactions.length then (false, mp)
  else if Mempool.validate_transaction_basic c transaction = false then (false, mp)
  else (true, { mp with pending_transactions := mp.pending_transactions ++ [(transaction.transaction_id, transaction)] })

/-- blockchain/wallet.py Wallet: key pair and derived address. -/
structure Wallet where
  private_key_hex : String
  public_key_hex : String
  address : String

/-- The comparison key of the sorted call in Wallet.create_transaction:
ascending output amount. -/
def amountLe (p q : UTXOKey × TransactionOutput) : Prop :=
  p.2.amount ≤ q.2.amount

instance : DecidableRel amountLe :=
  fun p q => inferInstanceAs (Decidable (p.2.amount ≤ q.2.amount))

instance : IsTotal (UTXOKey × TransactionOutput) amountLe :=
  ⟨fun p q => le_total p.2.amount q.2.amount⟩

instance : IsTrans (UTXOKey × TransactionOutput) amountLe :=
  ⟨fun _ _ _ h1 h2 => le_trans h1 h2⟩

/-- Models sorted(available_utxos.items(), key=amount): a stable sort in
ascending amount order. -/
def sortByAmount (l : List (UTXOKey × TransactionOutput)) : List (UTXOKey × TransactionOutput) :=
  List.insertionSort amountLe l

/-- The selection loop of Wallet.create_transaction: walk the sorted UTXOs,
accumulate amounts, and stop as soon as the running total reaches the
target. Returns the selected entries and the running total. -/
def selectUtxos (target_amount : ℚ) : List (UTXOKey × TransactionOutput) → ℚ → List (UTXOKey × TransactionOutput) × ℚ
  | [], total_input_amount => ([], total_input_amount)
  | p :: rest, total_input_amount =>
    let total2 := total_input_amount + p.2.amount
    if target_amount ≤ total2 then ([p], total2)
    else
      let r := selectUtxos target_amount rest total2
      (p :: r.1, r.2)

/-- Wallet.create_transaction of blockchain/wallet.py: reject a non-positive
amount or a negative fee, select own UTXOs ascending by amount until the
total covers amount plus fee, build the recipient output and a change
output above the dust threshold, and sign every input reference. -/
def Wallet.create_transaction (c : Crypto) (w : Wallet) (recipient_address : String)
    (amount fee : ℚ) (utxo_set : UTXOSet) : Option Transaction :=
  if amount ≤ 0 then none
  else if fee < 0 then none
  else
    let available_utxos := UTXOSet.find_utxos_for_address utxo_set w.address
    if available_utxos = [] then none
    else
      let target_amount := amount + fee
      let sorted_utxos := sortByAmount available_utxos
      let sel := selectUtxos target_amount sorted_utxos 0
      if sel.2 < target_amount then none
      else
        let outputs0 := [TransactionOutput.mk (rnd8 amount) recipient_address]
        let change_amount := rnd8 (sel.2 - target_amount)
        let outputs := if 1/100000000 < change_amount then outputs0 ++ [TransactionOutput.mk change_amount w.address] else outputs0
        let inputs := sel.1.map (fun p => TransactionInput.mk p.1.1 p.1.2 (UScript.dict []))
        let data_to_sign := regularTxDataString inputs outputs
        let signed_inputs := inputs.map (fun inp_ref =>
          TransactionInput.mk inp_ref.transaction_id inp_ref.output_index
            (UScript.dict [("signature", c.sign w.private_key_hex data_to_sign), ("public_key", w.public_key_hex)]))
        some (Transaction.mk signed_inputs outputs (Transaction.calculate_transaction_id c.sha256hex signed_inputs outputs))

/-- The per-input acceptance of the validation loop, as one boolean: the
referenced UTXO exists, the unlock script is a dict with signature and
public key, the key hashes to the lock script, and the signature verifies. -/
def inputOk (c : Crypto) (utxo_set : UTXOSet) (data_to_sign : String) (inp : TransactionInput) : Bool :=
  match UTXOSet.get_utxo utxo_set inp.transaction_id inp.output_index with
  | none => false
  | some spent_utxo =>
    match inp.unlock_script with
    | .nonDict => false
    | .dict entries =>
      match alookup "signature" entries, alookup "public_key" entries with
      | some signature_hex, some pub_key_hex =>
        if spent_utxo.lock_script ≠ c.public_key_to_address pub_key_hex then false
        else if c.verify pub_key_hex data_to_sign signature_hex = false then false
        else true
      | _, _ => false

/-- The amount of the UTXO an input resolves to, zero when it is missing. -/
def inputAmount (utxo_set : UTXOSet) (inp : TransactionInput) : ℚ :=
  match UTXOSet.get_utxo utxo_set inp.transaction_id inp.output_index with
  | some o => o.amount
  | none => 0

/-- The sum of the amounts the inputs resolve to in the given UTXO set. -/
def inputSum (utxo_set : UTXOSet) (ins : List TransactionInput) : ℚ :=
  (ins.map (inputAmount utxo_set)).sum

/-- The sum of the output amounts. -/
def outputSum (outs : List TransactionOutput) : ℚ :=
  (outs.map TransactionOutput.amount).sum

/-- The ownership check in isolation: the public key of the unlock script
hashes to the lock script of the referenced output. -/
def inputAddrOk (c : Crypto) (utxo_set : UTXOSet) (i : TransactionInput) : Bool :=
  match UTXOSet.get_utxo utxo_set i.transaction_id i.output_index, scriptPub i.unlock_script with
  | some o, some pub => o.lock_script == c.public_key_to_address pub
  | _, _ => false

/-- The signature check in isolation. -/
def inputSigOk (c : Crypto) (data_to_sign : String) (s : UScript) : Bool :=
  match scriptSig s, scriptPub s with
  | some sig, some pub => c.verify pub data_to_sign sig
  | _, _ => false

/-- The acceptance conditions of Chain.validate_transaction, as the
specification enumerates them: no key repeats inside the transaction, every
referenced UTXO exists, every unlock script is a dict with signature and
public-key fields, every public key hashes to the lock script of the
referenced output, every signature verifies against get_data_to_sign, every
output amount is non-negative, and the rounded fee is non-negative. -/
def C2Conds (c : Crypto) (u : UTXOSet) (tx : Transaction) : Prop :=
  (tx.inputs.map inputKey).Nodup ∧
  (∀ i ∈ tx.inputs, (UTXOSet.get_utxo u i.transaction_id i.output_index).isSome = true) ∧
  (∀ i ∈ tx.inputs, i.unlock_script.isDict = true ∧ (scriptSig i.unlock_script).isSome = true ∧
    (scriptPub i.unlock_script).isSome = true) ∧
  (∀ i ∈ tx.inputs, inputAddrOk c u i = true) ∧
  (∀ i ∈ tx.inputs, inputSigOk c tx.get_data_to_sign i.unlock_script = true) ∧
  (∀ o ∈ tx.outputs, 0 ≤ o.amount) ∧
  0 ≤ rnd8 (inputSum u tx.inputs - outputSum tx.outputs)

/-- The chain states built from a genesis block by successful add_block
calls, paired with the incrementally maintained UTXO set (the node
initializes the set by replaying the genesis block, then every commit
applies update_from_block). -/
inductive Reachable (c : Crypto) (vh : Block → Bool) : List Block → UTXOSet → Prop where
  | genesis (g : Block) : Reachable c vh [g] (UTXOSet.update_from_block [] g)
  | step {blocks : List Block} {utxo : UTXOSet} {b : Block}
      {blocks2 : List Block} {utxo2 : UTXOSet} :
      Reachable c vh blocks utxo →
      Chain.add_block c vh blocks utxo b = (true, blocks2, utxo2) →
      Reachable c vh blocks2 utxo2

/-- The admission conditions of Mempool.add_transaction, as the
specification enumerates them. The UTXO set is not an argument anywhere in
the mempool: admission never consults it. -/
def C6Conds (c : Crypto) (mp : Mempool) (tx : Transaction) : Prop :=
  alookup tx.transaction_id mp.pending_transactions = none ∧
  mp.pending_transactions.length < mp.max_size ∧
  tx.is_coinbase = false ∧
  tx.inputs ≠ [] ∧
  tx.outputs ≠ [] ∧
  ∀ i ∈ tx.inputs, (scriptSig i.unlock_script).isSome = true ∧
    (scriptPub i.unlock_script).isSome = true ∧
    inputSigOk c tx.get_data_to_sign i.unlock_script = true

/-- The dictionary shape handed to TransactionInput.from_dict: absent keys
are modelled as none (Python raises KeyError; get supplies a default for
the unlock script only). -/
structure TxInputDict where
  transaction_id : Option String
  output_index : Option Int
  unlock_script : Option UScript

/-- The dictionary shape handed to TransactionOutput.from_dict. -/
structure TxOutputDict where
  amount : Option ℚ
  lock_script : Option String

/-- The dictionary shape handed to Transaction.from_dict. -/
structure TxDict where
  transaction_id : Option String
  inputs : Option (List TxInputDict)
  outputs : Option (List TxOutputDict)

/-- TransactionInput.from_dict: a missing or non-dict unlock script becomes
the empty dict; missing reference fields are a KeyError, surfaced by the
caller as a ValueError. -/
def TransactionInput.from_dict (data : TxInputDict) : Except String TransactionInput :=
  let unlock_script : UScript :=
    match data.unlock_script with
    | some (UScript.dict es) => UScript.dict es
    | some UScript.nonDict => UScript.dict []
    | none => UScript.dict []
  match data.transaction_id, data.output_index with
  | some tid, some idx => .ok ⟨tid, idx, unlock_script⟩
  | _, _ => .error "Missing required field in transaction data"

/-- TransactionOutput.from_dict: the constructor rejects a negative amount;
missing fields are a KeyError. -/
def TransactionOutput.from_dict (data : TxOutputDict) : Except String TransactionOutput :=
  match data.amount, data.lock_script with
  | some a, some ls =>
    if a < 0 then .error "Transaction output amount cannot be negative"
    else .ok ⟨a, ls⟩
  | _, _ => .error "Missing required field in transaction data"

/-- Transaction.from_dict: parse inputs, then outputs, then require a
non-falsy stored transaction_id, and build the transaction with that id
passed through verbatim (the id is deliberately not recomputed). -/
def Transaction.from_dict (sha256hex : String → String) (data : TxDict) : Except String Transaction :=
  match (data.inputs.getD []).mapM TransactionInput.from_dict with
  | .error e => .error e
  | .ok inputs =>
    match (data.outputs.getD []).mapM TransactionOutput.from_dict with
    | .error e => .error e
    | .ok outputs =>
      match data.transaction_id with
      | none => .error "Transaction data must include transaction_id"
      | some tx_id_from_data =>
        if tx_id_from_data = "" then .error "Transaction data must include transaction_id"
        else Transaction.make sha256hex inputs outputs (some tx_id_from_data)

/-- The amounts of a list of UTXO entries. -/
def amountsOf (l : List (UTXOKey × TransactionOutput)) : List ℚ :=
  l.map (fun p => p.2.amount)

/-- The wallet UTXO candidates: the address filter over the set. -/
def walletAvailable (w : Wallet) (u : UTXOSet) : List (UTXOKey × TransactionOutput) :=
  UTXOSet.find_utxos_for_address u w.address

/-- The candidates in the ascending-amount order the wallet walks. -/
def walletSorted (w : Wallet) (u : UTXOSet) : List (UTXOKey × TransactionOutput) :=
  sortByAmount (walletAvailable w u)

/-- The selection the wallet makes for a given amount and fee. -/
def walletSelection (w : Wallet) (amount fee : ℚ) (u : UTXOSet) :
    List (UTXOKey × TransactionOutput) × ℚ :=
  selectUtxos (amount + fee) (walletSorted w u) 0

/-- A concrete hash stand-in for evaluating the definitions on closed
inputs; every claim theorem is parametric in the primitives, so any
function works here. -/
def testSha : String → String := fun _ => "h"

/-- A concrete crypto instance for closed evaluations: the address of a
public key is a tagged copy, and every signature verifies. -/
def testCrypto : Crypto :=
  ⟨testSha, fun pub => "addr:" ++ pub, fun _ _ _ => true, fun _ _ => "sig"⟩

/-- A header validator that accepts every block, for closed evaluations. -/
def testVH : Block → Bool := fun _ => true

/-- A genesis-like transaction. -/
def genesisTx : Transaction :=
  ⟨[⟨COINBASE_TX_ID, -1, UScript.dict [("data", "Genesis Block Marker")]⟩],
    [⟨0, "genesis_reward_address_placeholder"⟩], "gid"⟩

/-- A genesis-like block. -/
def genesisBlock : Block :=
  ⟨0, [genesisTx], 0, COINBASE_TX_ID, 0, "gmr", "gh"⟩

/-- A UTXO set holding one unit spendable by the test key. -/
def c3utxo : UTXOSet := [(("t", 0), ⟨1, "addr:pk"⟩)]

/-- A coinbase transaction for block 1. -/
def c3cb : Transaction :=
  ⟨[⟨COINBASE_TX_ID, -1, UScript.dict [("data", "Block 1 reward")]⟩],
    [⟨50, "miner"⟩], "cb"⟩

/-- A transaction spending the one-unit UTXO into an output that is larger
by one billionth: the fee rounds to zero at 8 decimals, so validation
accepts it although the outputs exceed the inputs. -/
def c3bad : Transaction :=
  ⟨[⟨"t", 0, UScript.dict [("signature", "s"), ("public_key", "pk")]⟩],
    [⟨1 + 1/1000000000, "bob"⟩], "bad"⟩

/-- The block carrying the value-inflating transaction; its merkle_root
field holds the recomputed root under testSha. -/
def c3block : Block := ⟨1, [c3cb, c3bad], 0, "gh", 0, "h", "bh"⟩

/-- A value-conserving sibling of c3bad used to exercise the amended C3. -/
def c3good : Transaction :=
  ⟨[⟨"t", 0, UScript.dict [("signature", "s"), ("public_key", "pk")]⟩],
    [⟨1, "bob"⟩], "good"⟩

/-- The block carrying the conserving transaction. -/
def c3goodBlock : Block := ⟨1, [c3cb, c3good], 0, "gh", 0, "h", "bh"⟩

/-- A UTXO set for the C2 witness. -/
def c2utxo : UTXOSet := [(("t", 0), ⟨5, "addr:pk"⟩)]

/-- A valid transaction paying 3 out of a 5-unit UTXO (fee 2). -/
def c2tx : Transaction :=
  ⟨[⟨"t", 0, UScript.dict [("signature", "s"), ("public_key", "pk")]⟩],
    [⟨3, "bob"⟩], "t2"⟩

/-- Input lists for the C4 witness: same references, different scripts. -/
def c4ins1 : List TransactionInput :=
  [⟨"t", 0, UScript.dict [("signature", "s1"), ("public_key", "p1")]⟩]

/-- The second input list of the C4 witness. -/
def c4ins2 : List TransactionInput :=
  [⟨"t", 0, UScript.dict [("signature", "s2"), ("public_key", "p2")]⟩]

/-- The common outputs of the C4 witness. -/
def c4outs : List TransactionOutput := [⟨1, "bob"⟩]

/-- An empty mempool with the default capacity. -/
def c6mp : Mempool := ⟨[], 1000⟩

/-- A structurally valid transaction for the C6 witness. -/
def c6tx : Transaction :=
  ⟨[⟨"t", 0, UScript.dict [("signature", "s"), ("public_key", "pk")]⟩],
    [⟨1, "bob"⟩], "t6"⟩

/-- The wallet of the C8 and C10 witnesses. -/
def c8wallet : Wallet := ⟨"priv", "pub", "A"⟩

/-- A set holding a single 10-unit UTXO of that wallet. -/
def c8utxo : UTXOSet := [(("t", 0), ⟨10, "A"⟩)]

/-- A serialized transaction whose stored id is not the recomputed hash. -/
def c9dict : TxDict :=
  ⟨some "deadbeef",
    some [⟨some "t", some 0, some (UScript.dict [("signature", "s"), ("public_key", "pk")])⟩],
    some [⟨some 3, some "bob"⟩]⟩

/-- The same data with the stored id removed. -/
def c9dictNoId : TxDict :=
  ⟨none,
    some [⟨some "t", some 0, some (UScript.dict [("signature", "s"), ("public_key", "pk")])⟩],
    some [⟨some 3, some "bob"⟩]⟩

/-- The transaction c9dict parses to: it carries the stored id verbatim. -/
def c9tx : Transaction :=
  ⟨[⟨"t", 0, UScript.dict [("signature", "s"), ("public_key", "pk")]⟩],
    [⟨3, "bob"⟩], "deadbeef"⟩

/-- pairHash halves the level size, rounding down. -/
theorem pairHash_length (sha256hex : String → String) :
    ∀ l : List String, (pairHash sha256hex l).length = l.length / 2
  | [] => by simp [pairHash]
  | [_] => by simp [pairHash]
  | _ :: _ :: rest => by
    simp only [pairHash, List.length_cons, pairHash_length sha256hex rest]
    omega

/-- padEven adds one element exactly when the level size is odd. -/
theorem padEven_length (l : List String) :
    (padEven l).length = l.length + l.length % 2 := by
  unfold padEven
  split
  · rename_i hodd
    match h : l.getLast? with
    | some last => simp [h]; omega
    | none =>
      rw [List.getLast?_eq_none_iff] at h
      subst h
      simp at hodd
  · rename_i heven
    simp at heven
    omega

/-- The size of the next Merkle level. -/
theorem nextLevel_length (sha256hex : String → String) (l : List String) :
    (nextLevel sha256hex l).length = (l.length + l.length % 2) / 2 := by
  simp [nextLevel, pairHash_length, padEven_length]

/-- With fewer than two elements, the loop returns the head at any fuel. -/
theorem merkleLoop_small (sha256hex : String → String) (l : List String)
    (h : ¬ 2 ≤ l.length) : ∀ fuel, merkleLoop sha256hex fuel l = l.headD "" := by
  intro fuel
  cases fuel with
  | zero => rfl
  | succ g =>
    have e : merkleLoop sha256hex (g + 1) l =
        if 2 ≤ l.length then merkleLoop sha256hex g (nextLevel sha256hex l) else l.headD "" := rfl
    rw [e, if_neg h]

/-- Fuel irrelevance: any fuel at least the level size gives the same
result, so the bounded loop computes the unbounded while loop. -/
theorem merkleLoop_fuel (sha256hex : String → String) :
    ∀ f1 f2 : Nat, ∀ l : List String, l.length ≤ f1 → l.length ≤ f2 →
      merkleLoop sha256hex f1 l = merkleLoop sha256hex f2 l := by
  intro f1
  induction f1 with
  | zero =>
    intro f2 l h1 _
    have hl : ¬ 2 ≤ l.length := by omega
    rw [merkleLoop_small sha256hex l hl 0, merkleLoop_small sha256hex l hl f2]
  | succ g ih =>
    intro f2 l h1 h2
    by_cases hlen : 2 ≤ l.length
    · obtain ⟨g2, rfl⟩ : ∃ g2, f2 = g2 + 1 := ⟨f2 - 1, by omega⟩
      have e1 : merkleLoop sha256hex (g + 1) l =
          if 2 ≤ l.length then merkleLoop sha256hex g (nextLevel sha256hex l) else l.headD "" := rfl
      have e2 : merkleLoop sha256hex (g2 + 1) l =
          if 2 ≤ l.length then merkleLoop sha256hex g2 (nextLevel sha256hex l) else l.headD "" := rfl
      rw [e1, e2, if_pos hlen, if_pos hlen]
      have hlt : (nextLevel sha256hex l).length < l.length := by
        rw [nextLevel_length]; omega
      exact ih g2 (nextLevel sha256hex l) (by omega) (by omega)
    · rw [merkleLoop_small sha256hex l hlen (g + 1), merkleLoop_small sha256hex l hlen f2]

/-- The level recurrence of calculate_merkle_root on a list of at least two
elements: one padding-and-pairing pass, then the root of the next level. -/
theorem calculate_merkle_root_step (sha256hex : String → String) (x y : String) (l : List String) :
    calculate_merkle_root sha256hex (x :: y :: l) =
      calculate_merkle_root sha256hex (nextLevel sha256hex (x :: y :: l)) := by
  have hlen : 2 ≤ (x :: y :: l).length := by simp
  have hpos : 1 ≤ (nextLevel sha256hex (x :: y :: l)).length := by
    rw [nextLevel_length]
    simp only [List.length_cons]
    omega
  have hne : nextLevel sha256hex (x :: y :: l) ≠ [] := by
    intro h
    rw [h] at hpos
    simp at hpos
  have e1 : calculate_merkle_root sha256hex (x :: y :: l) =
      merkleLoop sha256hex (x :: y :: l).length (x :: y :: l) := by
    unfold calculate_merkle_root
    rw [if_neg (by simp)]
  have e0 : merkleLoop sha256hex (x :: y :: l).length (x :: y :: l) =
      if 2 ≤ (x :: y :: l).length then
        merkleLoop sha256hex (l.length + 1) (nextLevel sha256hex (x :: y :: l))
      else (x :: y :: l).headD "" := rfl
  have e2 : calculate_merkle_root sha256hex (nextLevel sha256hex (x :: y :: l)) =
      merkleLoop sha256hex (nextLevel sha256hex (x :: y :: l)).length (nextLevel sha256hex (x :: y :: l)) := by
    unfold calculate_merkle_root
    rw [if_neg hne]
  rw [e1, e0, if_pos hlen, e2]
  apply merkleLoop_fuel
  · have : (nextLevel sha256hex (x :: y :: l)).length < (x :: y :: l).length := by
      rw [nextLevel_length]
      simp only [List.length_cons]
      omega
    simp only [List.length_cons] at this
    omega
  · exact le_refl _

/-- The two-element root: the hash of the concatenated hex strings. -/
theorem calculate_merkle_root_two (sha256hex : String → String) (a b : String) :
    calculate_merkle_root sha256hex [a, b] = sha256hex (a ++ b) := by
  rw [calculate_merkle_root_step sha256hex a b []]
  have e : nextLevel sha256hex [a, b] = [sha256hex (a ++ b)] := by
    simp [nextLevel, padEven, pairHash]
  rw [e]
  rfl

/-- The three-element root: the last element is duplicated before pairing. -/
theorem calculate_merkle_root_three (sha256hex : String → String) (a b d : String) :
    calculate_merkle_root sha256hex [a, b, d] =
      sha256hex (sha256hex (a ++ b) ++ sha256hex (d ++ d)) := by
  rw [calculate_merkle_root_step sha256hex a b [d]]
  have e : nextLevel sha256hex [a, b, d] = [sha256hex (a ++ b), sha256hex (d ++ d)] := by
    simp [nextLevel, padEven, pairHash]
  rw [e, calculate_merkle_root_two]

/-- Claim C5: calculate_merkle_root hashes the empty byte string for an
empty list, returns a singleton unchanged, per level duplicates the last
element when the count is odd and replaces each adjacent pair by the hash
of the concatenated hex strings, until one element remains. The two- and
three-element cases make the concatenation rule and the odd-count
duplication explicit; the last conjunct is the general level recurrence. -/
theorem claim_C5 (sha256hex : String → String) :
    calculate_merkle_root sha256hex [] = sha256hex "" ∧
    (∀ x, calculate_merkle_root sha256hex [x] = x) ∧
    (∀ a b, calculate_merkle_root sha256hex [a, b] = sha256hex (a ++ b)) ∧
    (∀ a b d, calculate_merkle_root sha256hex [a, b, d] =
      sha256hex (sha256hex (a ++ b) ++ sha256hex (d ++ d))) ∧
    (∀ x y l, calculate_merkle_root sha256hex (x :: y :: l) =
      calculate_merkle_root sha256hex (pairHash sha256hex (padEven (x :: y :: l)))) :=
  ⟨rfl, fun _ => rfl, calculate_merkle_root_two sha256hex,
    calculate_merkle_root_three sha256hex, calculate_merkle_root_step sha256hex⟩

/-- inputOk decomposed into the four checks the specification names. -/
theorem inputOk_iff (c : Crypto) (u : UTXOSet) (d : String) (i : TransactionInput) :
    inputOk c u d i = true ↔
      ((UTXOSet.get_utxo u i.transaction_id i.output_index).isSome = true ∧
        (i.unlock_script.isDict = true ∧ (scriptSig i.unlock_script).isSome = true ∧
          (scriptPub i.unlock_script).isSome = true) ∧
        inputAddrOk c u i = true ∧
        inputSigOk c d i.unlock_script = true) := by
  cases hget : UTXOSet.get_utxo u i.transaction_id i.output_index with
  | none => simp [inputOk, inputAddrOk, hget]
  | some spent_utxo =>
    cases hscript : i.unlock_script with
    | nonDict => simp [inputOk, UScript.isDict, hget, hscript]
    | dict entries =>
      cases hsig : alookup "signature" entries with
      | none => simp [inputOk, inputSigOk, scriptSig, hget, hscript, hsig]
      | some signature_hex =>
        cases hpub : alookup "public_key" entries with
        | none => simp [inputOk, inputSigOk, scriptSig, scriptPub, hget, hscript, hsig, hpub]
        | some pub_key_hex =>
          by_cases haddr : spent_utxo.lock_script = c.public_key_to_address pub_key_hex
          · by_cases hver : c.verify pub_key_hex d signature_hex = true
            · simp [inputOk, inputAddrOk, inputSigOk, UScript.isDict, scriptSig, scriptPub,
                hget, hscript, hsig, hpub, haddr, hver]
            · simp only [Bool.not_eq_true] at hver
              simp [inputOk, inputAddrOk, inputSigOk, UScript.isDict, scriptSig, scriptPub,
                hget, hscript, hsig, hpub, haddr, hver]
          · simp [inputOk, inputAddrOk, inputSigOk, UScript.isDict, scriptSig, scriptPub,
              hget, hscript, hsig, hpub, haddr]

/-- The input loop of Chain.validate_transaction computes the accumulated
value exactly when no key repeats (also against the already-spent keys) and
every input passes the per-input checks; otherwise it fails. -/
theorem validateInputs_eq (c : Crypto) (u : UTXOSet) (d : String) :
    ∀ (ins : List TransactionInput) (spent : List UTXOKey) (acc : ℚ),
      validateInputs c u d ins spent acc =
        if (∀ k ∈ ins.map inputKey, k ∉ spent) ∧ (ins.map inputKey).Nodup ∧
            (∀ i ∈ ins, inputOk c u d i = true)
        then some (acc + inputSum u ins) else none := by
  intro ins
  induction ins with
  | nil =>
    intro spent acc
    simp [validateInputs, inputSum]
  | cons inp rest ih =>
    intro spent acc
    simp only [validateInputs]
    by_cases hmem : inputKey inp ∈ spent
    · rw [if_pos hmem, if_neg]
      rintro ⟨hA, -, -⟩
      exact hA (inputKey inp) (by simp) hmem
    · rw [if_neg hmem]
      cases hget : UTXOSet.get_utxo u inp.transaction_id inp.output_index with
      | none =>
        rw [if_neg]
        rintro ⟨-, -, hok⟩
        have h := hok inp (by simp)
        simp [inputOk, hget] at h
      | some spent_utxo =>
        cases hscript : inp.unlock_script with
        | nonDict =>
          rw [if_neg]
          rintro ⟨-, -, hok⟩
          have h := hok inp (by simp)
          simp [inputOk, hget, hscript] at h
        | dict entries =>
          dsimp only
          cases hsig : alookup "signature" entries with
          | none =>
            rw [if_neg]
            rintro ⟨-, -, hok⟩
            have h := hok inp (by simp)
            simp [inputOk, hget, hscript, hsig] at h
          | some signature_hex =>
            cases hpub : alookup "public_key" entries with
            | none =>
              rw [if_neg]
              rintro ⟨-, -, hok⟩
              have h := hok inp (by simp)
              simp [inputOk, hget, hscript, hsig, hpub] at h
            | some pub_key_hex =>
              dsimp only
              by_cases haddr : spent_utxo.lock_script = c.public_key_to_address pub_key_hex
              · by_cases hver : c.verify pub_key_hex d signature_hex = true
                · have hokInp : inputOk c u d inp = true := by
                    simp [inputOk, hget, hscript, hsig, hpub, haddr, hver]
                  rw [if_neg (not_not_intro haddr), if_neg (by simp [hver]), ih]
                  have hsum : inputSum u (inp :: rest) = spent_utxo.amount + inputSum u rest := by
                    simp [inputSum, inputAmount, hget]
                  apply if_congr
                  · simp only [List.map_cons, List.forall_mem_cons, List.nodup_cons,
                      List.mem_append, List.mem_singleton, not_or]
                    constructor
                    · rintro ⟨hA, hnd, hok⟩
                      have hkey : inputKey inp ∉ List.map inputKey rest := fun hk => (hA _ hk).2 rfl
                      exact ⟨⟨hmem, fun k hk => (hA k hk).1⟩, ⟨hkey, hnd⟩, hokInp, hok⟩
                    · rintro ⟨⟨-, hA⟩, ⟨hkey, hnd⟩, -, hok⟩
                      exact ⟨fun k hk => ⟨hA k hk, fun he => hkey (he ▸ hk)⟩, hnd, hok⟩
                  · rw [hsum, add_assoc]
                  · rfl
                · simp only [Bool.not_eq_true] at hver
                  rw [if_neg (not_not_intro haddr), if_pos hver, if_neg]
                  rintro ⟨-, -, hok⟩
                  have h := hok inp (by simp)
                  simp [inputOk, hget, hscript, hsig, hpub, haddr, hver] at h
              · rw [if_pos haddr, if_neg]
                rintro ⟨-, -, hok⟩
                have h := hok inp (by simp)
                simp [inputOk, hget, hscript, hsig, hpub, haddr] at h

/-- The output loop of Chain.validate_transaction computes the accumulated
output value exactly when every amount is non-negative. -/
theorem checkOutputs_eq :
    ∀ (outs : List TransactionOutput) (acc : ℚ),
      checkOutputs outs acc =
        if ∀ o ∈ outs, 0 ≤ o.amount then some (acc + outputSum outs) else none := by
  intro outs
  induction outs with
  | nil => intro acc; simp [checkOutputs, outputSum]
  | cons out rest ih =>
    intro acc
    simp only [checkOutputs]
    by_cases hneg : out.amount < 0
    · rw [if_pos hneg, if_neg]
      rintro h
      exact absurd (h out (by simp)) (by simpa using hneg)
    · rw [if_neg hneg, ih]
      have hsum : outputSum (out :: rest) = out.amount + outputSum rest := by
        simp [outputSum]
      apply if_congr
      · simp only [List.forall_mem_cons]
        constructor
        · intro h
          exact ⟨le_of_not_lt hneg, h⟩
        · rintro ⟨-, h⟩
          exact h
      · rw [hsum, add_assoc]
      · rfl

/-- Chain.validate_transaction as one conditional: under the constructor
invariants (non-coinbase, non-empty inputs and outputs), it returns the
rounded fee exactly when keys are distinct, every input passes the
per-input checks, every output is non-negative and the rounded fee is
non-negative; otherwise it returns (false, 0). -/
theorem validate_transaction_eq (c : Crypto) (u : UTXOSet) (tx : Transaction)
    (hcb : tx.is_coinbase = false) (hin : tx.inputs ≠ []) (hout : tx.outputs ≠ []) :
    Chain.validate_transaction c u tx =
      if (tx.inputs.map inputKey).Nodup ∧
          (∀ i ∈ tx.inputs, inputOk c u tx.get_data_to_sign i = true) ∧
          (∀ o ∈ tx.outputs, 0 ≤ o.amount) ∧
          0 ≤ rnd8 (inputSum u tx.inputs - outputSum tx.outputs)
      then (true, rnd8 (inputSum u tx.inputs - outputSum tx.outputs)) else (false, 0) := by
  have hv := validateInputs_eq c u tx.get_data_to_sign tx.inputs [] 0
  simp only [List.not_mem_nil, not_false_iff, implies_true, true_and, zero_add] at hv
  simp only [Chain.validate_transaction, hcb, Bool.false_eq_true, if_false, if_neg hin]
  rw [hv]
  by_cases hA : (tx.inputs.map inputKey).Nodup ∧ (∀ i ∈ tx.inputs, inputOk c u tx.get_data_to_sign i = true)
  · rw [if_pos hA]
    dsimp only
    rw [if_neg hout, checkOutputs_eq]
    by_cases hB : ∀ o ∈ tx.outputs, 0 ≤ o.amount
    · rw [if_pos hB]
      dsimp only
      simp only [zero_add]
      by_cases hC : rnd8 (inputSum u tx.inputs - outputSum tx.outputs) < 0
      · rw [if_pos hC, if_neg]
        rintro ⟨-, -, -, h⟩
        exact absurd h (not_le.mpr hC)
      · rw [if_neg hC, if_pos ⟨hA.1, hA.2, hB, le_of_not_lt hC⟩]
    · rw [if_neg hB]
      dsimp only
      rw [if_neg]
      rintro ⟨-, -, hB2, -⟩
      exact hB hB2
  · rw [if_neg hA]
    dsimp only
    rw [if_neg]
    rintro ⟨h1, h2, -, -⟩
    exact hA ⟨h1, h2⟩

/-- The enumerated conditions regroup into the conditional of
validate_transaction_eq. -/
theorem C2Conds_iff (c : Crypto) (u : UTXOSet) (tx : Transaction) :
    C2Conds c u tx ↔
      ((tx.inputs.map inputKey).Nodup ∧
        (∀ i ∈ tx.inputs, inputOk c u tx.get_data_to_sign i = true) ∧
        (∀ o ∈ tx.outputs, 0 ≤ o.amount) ∧
        0 ≤ rnd8 (inputSum u tx.inputs - outputSum tx.outputs)) := by
  unfold C2Conds
  constructor
  · rintro ⟨h1, h2, h3, h4, h5, h6, h7⟩
    exact ⟨h1, fun i hi => (inputOk_iff c u tx.get_data_to_sign i).mpr
      ⟨h2 i hi, h3 i hi, h4 i hi, h5 i hi⟩, h6, h7⟩
  · rintro ⟨h1, h2, h3, h4⟩
    refine ⟨h1, ?_, ?_, ?_, ?_, h3, h4⟩ <;> intro i hi
    · exact ((inputOk_iff c u tx.get_data_to_sign i).mp (h2 i hi)).1
    · exact ((inputOk_iff c u tx.get_data_to_sign i).mp (h2 i hi)).2.1
    · exact ((inputOk_iff c u tx.get_data_to_sign i).mp (h2 i hi)).2.2.1
    · exact ((inputOk_iff c u tx.get_data_to_sign i).mp (h2 i hi)).2.2.2

/-- Claim C2: for a non-coinbase transaction (which by construction has at
least one input and one output), Chain.validate_transaction returns
(true, fee) with fee the 8-decimal rounding of the resolved input total
minus the output total exactly when the enumerated conditions hold, and
returns (false, 0) otherwise. The UTXO set argument is only ever read, so
it is never mutated in this pure embedding of the source. -/
theorem claim_C2 (c : Crypto) (u : UTXOSet) (tx : Transaction)
    (hcb : tx.is_coinbase = false) (hin : tx.inputs ≠ []) (hout : tx.outputs ≠ []) :
    (Chain.validate_transaction c u tx =
        (true, rnd8 (inputSum u tx.inputs - outputSum tx.outputs)) ↔ C2Conds c u tx) ∧
    (¬ C2Conds c u tx → Chain.validate_transaction c u tx = (false, 0)) := by
  have he := validate_transaction_eq c u tx hcb hin hout
  have hc := C2Conds_iff c u tx
  constructor
  · constructor
    · intro hv
      by_cases h : (tx.inputs.map inputKey).Nodup ∧
          (∀ i ∈ tx.inputs, inputOk c u tx.get_data_to_sign i = true) ∧
          (∀ o ∈ tx.outputs, 0 ≤ o.amount) ∧
          0 ≤ rnd8 (inputSum u tx.inputs - outputSum tx.outputs)
      · exact hc.mpr h
      · rw [he, if_neg h] at hv
        simp at hv
    · intro h
      rw [he, if_pos (hc.mp h)]
  · intro hnc
    rw [he, if_neg (fun h => hnc (hc.mpr h))]

/-- Case analysis of the body of add_block: either a failing check leaves
the state untouched, or the transaction loop succeeded with exactly one
coinbase and the block is committed. -/
theorem add_block_body_cases (c : Crypto) (vh : Block → Bool) (blocks : List Block)
    (u : UTXOSet) (b : Block) :
    Chain.add_block_body c vh blocks u b = (false, blocks, u) ∨
    (Chain.add_block_body c vh blocks u b =
        (true, blocks ++ [b], UTXOSet.update_from_block u b) ∧
      ∃ t f, processTxs c b.transactions 0 u 0 0 = some (t, f, 1)) := by
  unfold Chain.add_block_body
  split
  · exact Or.inl rfl
  · split
    · exact Or.inl rfl
    · split
      · exact Or.inl rfl
      · split
        · exact Or.inl rfl
        · rename_i t f cnt heq
          split
          · exact Or.inl rfl
          · rename_i hcnt
            refine Or.inr ⟨rfl, t, f, ?_⟩
            rw [heq, not_ne_iff.mp hcnt]

/-- Case analysis of Chain.add_block: either nothing changes and the flag
is false, or the block is appended and update_from_block applied. -/
theorem add_block_cases (c : Crypto) (vh : Block → Bool) (blocks : List Block)
    (u : UTXOSet) (b : Block) :
    Chain.add_block c vh blocks u b = (false, blocks, u) ∨
    (Chain.add_block c vh blocks u b =
        (true, blocks ++ [b], UTXOSet.update_from_block u b) ∧
      ∃ t f, processTxs c b.transactions 0 u 0 0 = some (t, f, 1)) := by
  unfold Chain.add_block
  split
  · split
    · exact Or.inl rfl
    · split
      · exact Or.inl rfl
      · exact add_block_body_cases c vh blocks u b
  · split
    · exact Or.inl rfl
    · split
      · exact Or.inl rfl
      · exact add_block_body_cases c vh blocks u b

/-- Claim C1: Chain.add_block is atomic. For every consensus predicate,
chain state, UTXO set and block, the call either returns true, appends
exactly the given block, and applies its UTXO effects through
update_from_block, or returns false leaving the block list and the UTXO
set exactly as they were; every validation failure takes the second
branch. -/
theorem claim_C1 (c : Crypto) (vh : Block → Bool) (blocks : List Block)
    (utxo : UTXOSet) (b : Block) :
    Chain.add_block c vh blocks utxo b =
        (true, blocks ++ [b], UTXOSet.update_from_block utxo b) ∨
    Chain.add_block c vh blocks utxo b = (false, blocks, utxo) := by
  rcases add_block_cases c vh blocks utxo b with h | ⟨h, -⟩
  · exact Or.inr h
  · exact Or.inl h

/-- Claim C7: on every chain built by successful add_block calls,
UTXOSet.rebuild applied to any starting set (rebuild clears it first)
returns exactly the incrementally maintained UTXO set. -/
theorem claim_C7 (c : Crypto) (vh : Block → Bool) (blocks : List Block)
    (utxo : UTXOSet) (h : Reachable c vh blocks utxo) (u0 : UTXOSet) :
    UTXOSet.rebuild u0 blocks = utxo := by
  induction h with
  | genesis g => simp [UTXOSet.rebuild]
  | @step blocks1 utxo1 b blocks2 utxo2 hr hadd ih =>
    rcases add_block_cases c vh blocks1 utxo1 b with hf | ⟨ht, -⟩
    · rw [hf] at hadd
      simp at hadd
    · rw [ht] at hadd
      simp only [Prod.mk.injEq, true_and] at hadd
      obtain ⟨h1, h2⟩ := hadd
      subst h1
      subst h2
      unfold UTXOSet.rebuild at ih ⊢
      rw [List.foldl_append, ih]
      rfl

/-- A non-negative half-even rounding bounds its argument from below. -/
theorem roundHalfEven_nonneg_bound (q : ℚ) (h : 0 ≤ roundHalfEven q) :
    -(1/2 : ℚ) ≤ q := by
  by_contra hq
  push_neg at hq
  have hfl : (⌊q⌋ : ℚ) ≤ q := Int.floor_le q
  simp only [roundHalfEven] at h
  split_ifs at h with h1 h2 h3
  · have h0 : (0:ℚ) ≤ (⌊q⌋:ℚ) := by exact_mod_cast h
    linarith
  · have h0 : (-1:ℚ) ≤ (⌊q⌋:ℚ) := by exact_mod_cast (by omega : (-1:ℤ) ≤ ⌊q⌋)
    linarith
  · have h0 : (0:ℚ) ≤ (⌊q⌋:ℚ) := by exact_mod_cast h
    linarith
  · have h0 : (-1:ℚ) ≤ (⌊q⌋:ℚ) := by exact_mod_cast (by omega : (-1:ℤ) ≤ ⌊q⌋)
    have hr : 1/2 ≤ q - ⌊q⌋ := le_of_not_lt h1
    linarith

/-- A non-negative 8-decimal rounding bounds its argument from below by
minus half of the last decimal place. -/
theorem rnd8_nonneg_bound (x : ℚ) (h : 0 ≤ rnd8 x) : -(1/200000000 : ℚ) ≤ x := by
  unfold rnd8 at h
  have hpos : (0:ℚ) < 100000000 := by norm_num
  have h2 : 0 ≤ roundHalfEven (x * 100000000) := by
    by_contra hc
    push_neg at hc
    have hcq : (roundHalfEven (x * 100000000) : ℚ) < 0 := by exact_mod_cast hc
    rw [le_div_iff₀ hpos] at h
    simp only [zero_mul] at h
    linarith
  have h3 := roundHalfEven_nonneg_bound (x * 100000000) h2
  linarith

/-- Every non-coinbase transaction of a successful transaction loop passes
Chain.validate_transaction against some intermediate temporary UTXO set. -/
theorem processTxs_mem_valid (c : Crypto) :
    ∀ (txs : List Transaction) (i : Nat) (temp : UTXOSet) (fees : ℚ) (cb : Nat)
      (res : UTXOSet × ℚ × Nat),
      processTxs c txs i temp fees cb = some res →
      ∀ tx ∈ txs, tx.is_coinbase = false →
      ∃ t : UTXOSet, (Chain.validate_transaction c t tx).1 = true := by
  intro txs
  induction txs with
  | nil =>
    intro i temp fees cb res h tx htx hncb
    simp at htx
  | cons t0 rest ih =>
    intro i temp fees cb res h tx htx hncb
    simp only [processTxs] at h
    by_cases hcb : t0.is_coinbase = true
    · rw [if_pos hcb] at h
      by_cases hi : i ≠ 0
      · rw [if_pos hi] at h
        exact absurd h (by simp)
      · rw [if_neg hi] at h
        rcases List.mem_cons.mp htx with rfl | hmem
        · rw [hcb] at hncb
          exact absurd hncb (by simp)
        · exact ih (i + 1) temp fees (cb + 1) res h tx hmem hncb
    · rw [if_neg hcb] at h
      by_cases hval : (Chain.validate_transaction c temp t0).1 = false
      · rw [if_pos hval] at h
        exact absurd h (by simp)
      · rw [if_neg hval] at h
        rcases List.mem_cons.mp htx with rfl | hmem
        · exact ⟨temp, by simpa using hval⟩
        · exact ih (i + 1) _ _ _ res h tx hmem hncb

/-- A transaction accepted by Chain.validate_transaction can exceed its
resolved input total by at most half of the last rounded decimal place. -/
theorem validate_true_bound (c : Crypto) (u : UTXOSet) (tx : Transaction)
    (h : (Chain.validate_transaction c u tx).1 = true) :
    outputSum tx.outputs ≤ inputSum u tx.inputs + 1/200000000 := by
  by_cases hcb : tx.is_coinbase = true
  · simp [Chain.validate_transaction, hcb] at h
  · have hcbf : tx.is_coinbase = false := by simpa using hcb
    by_cases hin : tx.inputs = []
    · simp [Chain.validate_transaction, hcbf, hin] at h
    · by_cases hout : tx.outputs = []
      · rcases hv : validateInputs c u tx.get_data_to_sign tx.inputs [] 0 with _ | tot
        · simp [Chain.validate_transaction, hcbf, hin, hv] at h
        · simp [Chain.validate_transaction, hcbf, hin, hv, hout] at h
      · rw [validate_transaction_eq c u tx hcbf hin hout] at h
        by_cases hcond : (tx.inputs.map inputKey).Nodup ∧
            (∀ i ∈ tx.inputs, inputOk c u tx.get_data_to_sign i = true) ∧
            (∀ o ∈ tx.outputs, 0 ≤ o.amount) ∧
            0 ≤ rnd8 (inputSum u tx.inputs - outputSum tx.outputs)
        · have hb := rnd8_nonneg_bound _ hcond.2.2.2
          linarith
        · rw [if_neg hcond] at h
          simp at h

/-- Claim C3, amended: value conservation only holds up to the rounding
slack. Every non-coinbase transaction of a block committed by add_block
passes Chain.validate_transaction against the temporary UTXO set current at
its position, and its output total can exceed the input total it resolves
to there, but by at most 1/200000000 (half of the eighth decimal place). -/
theorem claim_C3_amended (c : Crypto) (vh : Block → Bool) (blocks : List Block)
    (utxo : UTXOSet) (b : Block) (blocks2 : List Block) (utxo2 : UTXOSet)
    (hadd : Chain.add_block c vh blocks utxo b = (true, blocks2, utxo2)) :
    ∀ tx ∈ b.transactions, tx.is_coinbase = false →
      ∃ temp : UTXOSet, (Chain.validate_transaction c temp tx).1 = true ∧
        outputSum tx.outputs ≤ inputSum temp tx.inputs + 1/200000000 := by
  intro tx htx hncb
  rcases add_block_cases c vh blocks utxo b with hf | ⟨-, t, f, hp⟩
  · rw [hf] at hadd
    simp at hadd
  · obtain ⟨temp, hval⟩ := processTxs_mem_valid c b.transactions 0 utxo 0 0 (t, f, 1) hp tx htx hncb
    exact ⟨temp, hval, validate_true_bound c temp tx hval⟩

/-- is_coinbase_data only reads the input references, so equal reference
lists agree on it. -/
theorem is_coinbase_data_refs (ins1 ins2 : List TransactionInput)
    (h : ins1.map inputRef = ins2.map inputRef) :
    Transaction.is_coinbase_data ins1 = Transaction.is_coinbase_data ins2 := by
  cases ins1 with
  | nil =>
    cases ins2 with
    | nil => rfl
    | cons b bs => simp at h
  | cons a as =>
    cases ins2 with
    | nil => simp at h
    | cons b bs =>
      simp only [List.map_cons, List.cons.injEq] at h
      obtain ⟨hab, hrest⟩ := h
      cases as with
      | nil =>
        cases bs with
        | nil =>
          have h1 : a.transaction_id = b.transaction_id := congrArg Prod.fst hab
          have h2 : a.output_index = b.output_index := congrArg Prod.snd hab
          simp [Transaction.is_coinbase_data, h1, h2]
        | cons b2 bs2 => simp at hrest
      | cons a2 as2 =>
        cases bs with
        | nil => simp at hrest
        | cons b2 bs2 => rfl

/-- Claim C4: the TXID of a non-coinbase transaction does not depend on the
unlock scripts. Two input lists with the same references, under the same
outputs, hash to the same transaction id, whatever their signatures or
public keys; the theorem is parametric in the hash primitive. -/
theorem claim_C4 (c : Crypto) (ins1 ins2 : List TransactionInput)
    (outs : List TransactionOutput)
    (hcb : Transaction.is_coinbase_data ins1 = false)
    (href : ins1.map inputRef = ins2.map inputRef) :
    Transaction.calculate_transaction_id c.sha256hex ins1 outs =
      Transaction.calculate_transaction_id c.sha256hex ins2 outs := by
  have hcb2 : Transaction.is_coinbase_data ins2 = false := by
    rw [← is_coinbase_data_refs ins1 ins2 href]
    exact hcb
  unfold Transaction.calculate_transaction_id
  rw [if_neg (by simp [hcb]), if_neg (by simp [hcb2])]
  unfold regularTxDataString
  have e : ∀ ins : List TransactionInput,
      ins.map inputRefJson = (ins.map inputRef).map (fun p => refJson p.1 p.2) := by
    intro ins
    rw [List.map_map]
    rfl
  rw [e ins1, e ins2, href]

/-- The per-input body of the mempool loop is the isolated signature check. -/
theorem mempoolInput_eq_inputSigOk (c : Crypto) (d : String) (s : UScript) :
    (match s with
      | .nonDict => false
      | .dict entries =>
        match alookup "signature" entries, alookup "public_key" entries with
        | some sig_hex, some pub_key_hex => c.verify pub_key_hex d sig_hex
        | _, _ => false) = inputSigOk c d s := by
  cases s with
  | nonDict => rfl
  | dict entries =>
    unfold inputSigOk scriptSig scriptPub
    rfl

/-- A passing signature check implies both fields are present. -/
theorem inputSigOk_isSome (c : Crypto) (d : String) (s : UScript)
    (h : inputSigOk c d s = true) :
    (scriptSig s).isSome = true ∧ (scriptPub s).isSome = true := by
  unfold inputSigOk at h
  cases hs : scriptSig s with
  | none => rw [hs] at h; simp at h
  | some sig =>
    cases hp : scriptPub s with
    | none => rw [hs, hp] at h; simp at h
    | some pub => simp [hs, hp]

/-- The basic validation flag, decomposed. -/
theorem validate_basic_iff (c : Crypto) (tx : Transaction) :
    Mempool.validate_transaction_basic c tx = true ↔
      (tx.is_coinbase = false ∧ tx.inputs ≠ [] ∧ tx.outputs ≠ [] ∧
        ∀ i ∈ tx.inputs, (scriptSig i.unlock_script).isSome = true ∧
          (scriptPub i.unlock_script).isSome = true ∧
          inputSigOk c tx.get_data_to_sign i.unlock_script = true) := by
  unfold Mempool.validate_transaction_basic
  by_cases hcb : tx.is_coinbase = true
  · simp [hcb]
  · have hcbf : tx.is_coinbase = false := by simpa using hcb
    rw [if_neg (by simp [hcbf])]
    by_cases hin : tx.inputs = []
    · simp [hin]
    · rw [if_neg hin]
      by_cases hout : tx.outputs = []
      · simp [hout]
      · rw [if_neg hout]
        rw [List.all_eq_true]
        constructor
        · intro h
          refine ⟨hcbf, hin, hout, fun i hi => ?_⟩
          have hb := h i hi
          rw [mempoolInput_eq_inputSigOk c tx.get_data_to_sign i.unlock_script] at hb
          exact ⟨(inputSigOk_isSome c _ _ hb).1, (inputSigOk_isSome c _ _ hb).2, hb⟩
        · rintro ⟨-, -, -, h⟩
          intro i hi
          rw [mempoolInput_eq_inputSigOk c tx.get_data_to_sign i.unlock_script]
          exact (h i hi).2.2

/-- Claim C6: Mempool.add_transaction returns true and appends the
transaction under its id exactly when the id is absent, the pool is below
capacity, the transaction is non-coinbase with at least one input and one
output, and every input carries a dict unlock script whose signature
verifies against get_data_to_sign; on rejection the pool is unchanged. The
decision never reads the UTXO set (no such argument exists). -/
theorem claim_C6 (c : Crypto) (mp : Mempool) (tx : Transaction) :
    ((Mempool.add_transaction c mp tx).1 = true ↔ C6Conds c mp tx) ∧
    ((Mempool.add_transaction c mp tx).1 = true →
      (Mempool.add_transaction c mp tx).2 =
        { mp with pending_transactions :=
            mp.pending_transactions ++ [(tx.transaction_id, tx)] }) ∧
    ((Mempool.add_transaction c mp tx).1 = false →
      (Mempool.add_transaction c mp tx).2 = mp) := by
  unfold Mempool.add_transaction C6Conds
  by_cases h1 : (alookup tx.transaction_id mp.pending_transactions).isSome = true
  · rw [if_pos h1]
    refine ⟨⟨fun hv => absurd hv (by simp), ?_⟩, fun hv => absurd hv (by simp), fun _ => rfl⟩
    rintro ⟨hn, -⟩
    rw [hn] at h1
    simp at h1
  · rw [if_neg h1]
    have hnone : alookup tx.transaction_id mp.pending_transactions = none := by
      cases ha : alookup tx.transaction_id mp.pending_transactions with
      | none => rfl
      | some t => rw [ha] at h1; simp at h1
    by_cases h2 : mp.max_size ≤ mp.pending_transactions.length
    · rw [if_pos h2]
      refine ⟨⟨fun hv => absurd hv (by simp), ?_⟩, fun hv => absurd hv (by simp), fun _ => rfl⟩
      rintro ⟨-, hlt, -⟩
      omega
    · rw [if_neg h2]
      by_cases h3 : Mempool.validate_transaction_basic c tx = true
      · rw [if_neg (by simp [h3])]
        obtain ⟨hb1, hb2, hb3, hb4⟩ := (validate_basic_iff c tx).mp h3
        refine ⟨⟨fun _ => ⟨hnone, by omega, hb1, hb2, hb3, hb4⟩, fun _ => rfl⟩,
          fun _ => rfl, fun hv => absurd hv (by simp)⟩
      · have h3f : Mempool.validate_transaction_basic c tx = false := by simpa using h3
        rw [if_pos h3f]
        refine ⟨⟨fun hv => absurd hv (by simp), ?_⟩, fun hv => absurd hv (by simp), fun _ => rfl⟩
        rintro ⟨-, -, hc1, hc2, hc3, hc4⟩
        exact (h3 ((validate_basic_iff c tx).mpr ⟨hc1, hc2, hc3, hc4⟩)).elim

/-- Claim C9: Transaction.from_dict never recomputes the id. Whenever it
returns a transaction, that transaction carries the stored transaction_id
verbatim, whatever hash the parsed inputs and outputs would give; and a
dictionary whose transaction_id is absent or the empty string always
produces an error instead of a transaction. -/
theorem claim_C9 (sha256hex : String → String) (data : TxDict) :
    (∀ tx : Transaction, Transaction.from_dict sha256hex data = Except.ok tx →
      data.transaction_id = some tx.transaction_id) ∧
    ((data.transaction_id = none ∨ data.transaction_id = some "") →
      ∃ e, Transaction.from_dict sha256hex data = Except.error e) := by
  constructor
  · intro tx hok
    unfold Transaction.from_dict at hok
    cases hin : (data.inputs.getD []).mapM TransactionInput.from_dict with
    | error e => rw [hin] at hok; exact Except.noConfusion hok
    | ok inputs =>
      rw [hin] at hok
      cases hout : (data.outputs.getD []).mapM TransactionOutput.from_dict with
      | error e => rw [hout] at hok; exact Except.noConfusion hok
      | ok outputs =>
        rw [hout] at hok
        cases hid : data.transaction_id with
        | none => rw [hid] at hok; exact Except.noConfusion hok
        | some tid =>
          rw [hid] at hok
          dsimp only at hok
          by_cases hemp : tid = ""
          · rw [if_pos hemp] at hok; exact Except.noConfusion hok
          · rw [if_neg hemp] at hok
            unfold Transaction.make at hok
            by_cases hie : inputs = []
            · rw [if_pos hie] at hok; exact Except.noConfusion hok
            · rw [if_neg hie] at hok
              by_cases hoe : outputs = []
              · rw [if_pos hoe] at hok; exact Except.noConfusion hok
              · rw [if_neg hoe] at hok
                dsimp only at hok
                rw [if_neg hemp] at hok
                injection hok with h
                rw [← h]
  · intro hid
    unfold Transaction.from_dict
    cases hin : (data.inputs.getD []).mapM TransactionInput.from_dict with
    | error e => exact ⟨e, rfl⟩
    | ok inputs =>
      cases hout : (data.outputs.getD []).mapM TransactionOutput.from_dict with
      | error e => exact ⟨e, rfl⟩
      | ok outputs =>
        rcases hid with hid | hid
        · rw [hid]
          exact ⟨_, rfl⟩
        · rw [hid]
          dsimp only
          rw [if_pos rfl]
          exact ⟨_, rfl⟩

/-- Claim C10: a non-positive amount or a negative fee makes
Wallet.create_transaction return None; in this pure embedding of the
source nothing else happens (the UTXO set and the wallet are read-only
arguments and no exception path exists on these branches). -/
theorem claim_C10 (c : Crypto) (w : Wallet) (recipient : String) (amount fee : ℚ)
    (u : UTXOSet) (h : amount ≤ 0 ∨ fee < 0) :
    Wallet.create_transaction c w recipient amount fee u = none := by
  unfold Wallet.create_transaction
  rcases h with h | h
  · rw [if_pos h]
  · by_cases h2 : amount ≤ 0
    · rw [if_pos h2]
    · rw [if_neg h2, if_pos h]

/-- The selection is an initial segment of the walked list. -/
theorem selectUtxos_take (t : ℚ) :
    ∀ (l : List (UTXOKey × TransactionOutput)) (acc : ℚ),
      ∃ k, (selectUtxos t l acc).1 = l.take k := by
  intro l
  induction l with
  | nil => intro acc; exact ⟨0, rfl⟩
  | cons p rest ih =>
    intro acc
    simp only [selectUtxos]
    by_cases hc : t ≤ acc + p.2.amount
    · rw [if_pos hc]
      exact ⟨1, rfl⟩
    · rw [if_neg hc]
      obtain ⟨k, hk⟩ := ih (acc + p.2.amount)
      exact ⟨k + 1, by simp [hk]⟩

/-- The returned total is the accumulator plus the selected amounts. -/
theorem selectUtxos_total (t : ℚ) :
    ∀ (l : List (UTXOKey × TransactionOutput)) (acc : ℚ),
      (selectUtxos t l acc).2 = acc + (amountsOf (selectUtxos t l acc).1).sum := by
  intro l
  induction l with
  | nil => intro acc; simp [selectUtxos, amountsOf]
  | cons p rest ih =>
    intro acc
    simp only [selectUtxos]
    by_cases hc : t ≤ acc + p.2.amount
    · rw [if_pos hc]
      simp [amountsOf]
    · rw [if_neg hc]
      dsimp only
      rw [ih (acc + p.2.amount)]
      simp [amountsOf]
      ring

/-- With non-negative amounts, the selection misses the target exactly when
the whole list does. -/
theorem selectUtxos_lt_iff (t : ℚ) :
    ∀ (l : List (UTXOKey × TransactionOutput)) (acc : ℚ),
      (∀ p ∈ l, 0 ≤ p.2.amount) →
      ((selectUtxos t l acc).2 < t ↔ acc + (amountsOf l).sum < t) := by
  intro l
  induction l with
  | nil => intro acc _; simp [selectUtxos, amountsOf]
  | cons p rest ih =>
    intro acc hpos
    simp only [selectUtxos]
    by_cases hc : t ≤ acc + p.2.amount
    · rw [if_pos hc]
      dsimp only
      have hrest : 0 ≤ (amountsOf rest).sum := by
        apply List.sum_nonneg
        intro x hx
        simp only [amountsOf, List.mem_map] at hx
        obtain ⟨q, hq, rfl⟩ := hx
        exact hpos q (List.mem_cons_of_mem p hq)
      constructor
      · intro h
        exact absurd h (not_lt.mpr hc)
      · intro h
        simp only [amountsOf, List.map_cons, List.sum_cons] at h
        simp only [amountsOf] at hrest
        linarith
    · rw [if_neg hc]
      dsimp only
      rw [ih (acc + p.2.amount) (fun q hq => hpos q (List.mem_cons_of_mem p hq))]
      simp only [amountsOf, List.map_cons, List.sum_cons]
      constructor <;> intro h <;> linarith

/-- Dropping the last selected entry always leaves the running total below
the target: the loop stops at the first entry that reaches it. -/
theorem selectUtxos_strict (t : ℚ) :
    ∀ (l : List (UTXOKey × TransactionOutput)) (acc : ℚ), acc < t →
      acc + (amountsOf (selectUtxos t l acc).1.dropLast).sum < t := by
  intro l
  induction l with
  | nil => intro acc hacc; simpa [selectUtxos, amountsOf] using hacc
  | cons p rest ih =>
    intro acc hacc
    simp only [selectUtxos]
    by_cases hc : t ≤ acc + p.2.amount
    · rw [if_pos hc]
      simpa [amountsOf] using hacc
    · rw [if_neg hc]
      dsimp only
      have hacc2 : acc + p.2.amount < t := not_le.mp hc
      have hih := ih (acc + p.2.amount) hacc2
      cases hr : (selectUtxos t rest (acc + p.2.amount)).1 with
      | nil => simpa [hr, amountsOf] using hacc
      | cons q qs =>
        rw [hr] at hih
        have hd : (p :: q :: qs).dropLast = p :: (q :: qs).dropLast := rfl
        rw [hd]
        simp only [amountsOf, List.map_cons, List.sum_cons]
        simp only [amountsOf] at hih
        linarith

/-- Claim C8: Wallet.create_transaction walks the wallet UTXOs in ascending
amount order (a stable sort of the address filter), selects the shortest
initial segment whose total reaches amount plus fee, fails exactly when
there is no candidate or the total of all candidates is insufficient, and
on success emits the rounded recipient output first, appending a change
output to the own address exactly when the rounded change exceeds the dust
threshold. Amount positivity, fee non-negativity (the documented
precondition) and non-negative stored amounts (the output constructor
invariant) are assumed. -/
theorem claim_C8 (c : Crypto) (w : Wallet) (recipient : String) (amount fee : ℚ)
    (u : UTXOSet) (hamt : 0 < amount) (hfee : 0 ≤ fee)
    (hpos : ∀ p ∈ u, 0 ≤ (Prod.snd p).amount) :
    (Wallet.create_transaction c w recipient amount fee u = none ↔
      walletAvailable w u = [] ∨ (amountsOf (walletAvailable w u)).sum < amount + fee) ∧
    List.Sorted amountLe (walletSorted w u) ∧
    List.Perm (walletSorted w u) (walletAvailable w u) ∧
    (∀ tx, Wallet.create_transaction c w recipient amount fee u = some tx →
      (∃ k, (walletSelection w amount fee u).1 = (walletSorted w u).take k) ∧
      tx.inputs.map inputRef = (walletSelection w amount fee u).1.map Prod.fst ∧
      amount + fee ≤ (walletSelection w amount fee u).2 ∧
      (amountsOf (walletSelection w amount fee u).1.dropLast).sum < amount + fee ∧
      tx.outputs = TransactionOutput.mk (rnd8 amount) recipient ::
        (if 1/100000000 < rnd8 ((walletSelection w amount fee u).2 - (amount + fee))
          then [TransactionOutput.mk (rnd8 ((walletSelection w amount fee u).2 - (amount + fee))) w.address]
          else [])) := by
  have hns : ¬ amount ≤ 0 := not_le.mpr hamt
  have hnf : ¬ fee < 0 := not_lt.mpr hfee
  have hsorted : List.Sorted amountLe (walletSorted w u) :=
    List.sorted_insertionSort amountLe (walletAvailable w u)
  have hperm : List.Perm (walletSorted w u) (walletAvailable w u) :=
    List.perm_insertionSort amountLe (walletAvailable w u)
  have hposSorted : ∀ p ∈ walletSorted w u, 0 ≤ p.2.amount := by
    intro p hp
    have hpav : p ∈ walletAvailable w u := hperm.mem_iff.mp hp
    have hpu : p ∈ u := by
      unfold walletAvailable UTXOSet.find_utxos_for_address at hpav
      exact (List.mem_filter.mp hpav).1
    exact hpos p hpu
  have hsum_eq : (amountsOf (walletSorted w u)).sum = (amountsOf (walletAvailable w u)).sum := by
    unfold amountsOf
    exact (hperm.map (fun p => p.2.amount)).sum_eq
  have hlt := selectUtxos_lt_iff (amount + fee) (walletSorted w u) 0 hposSorted
  rw [zero_add] at hlt
  have hfold : selectUtxos (amount + fee)
      (sortByAmount (UTXOSet.find_utxos_for_address u w.address)) 0 =
      walletSelection w amount fee u := rfl
  refine ⟨?_, hsorted, hperm, ?_⟩
  · unfold Wallet.create_transaction
    rw [if_neg hns, if_neg hnf]
    by_cases hav : UTXOSet.find_utxos_for_address u w.address = []
    · rw [if_pos hav]
      constructor
      · intro _
        exact Or.inl hav
      · intro _
        rfl
    · rw [if_neg hav]
      dsimp only
      rw [hfold]
      by_cases hsel : (walletSelection w amount fee u).2 < amount + fee
      · rw [if_pos hsel]
        constructor
        · intro _
          refine Or.inr ?_
          rw [← hsum_eq]
          exact hlt.mp hsel
        · intro _
          rfl
      · rw [if_neg hsel]
        constructor
        · intro hnone
          exact Option.noConfusion hnone
        · rintro (hav2 | hsum2)
          · exact absurd hav2 hav
          · rw [← hsum_eq] at hsum2
            exact absurd (hlt.mpr hsum2) hsel
  · intro tx htx
    unfold Wallet.create_transaction at htx
    rw [if_neg hns, if_neg hnf] at htx
    by_cases hav : UTXOSet.find_utxos_for_address u w.address = []
    · rw [if_pos hav] at htx
      exact Option.noConfusion htx
    · rw [if_neg hav] at htx
      dsimp only at htx
      rw [hfold] at htx
      by_cases hsel : (walletSelection w amount fee u).2 < amount + fee
      · rw [if_pos hsel] at htx
        exact Option.noConfusion htx
      · rw [if_neg hsel] at htx
        injection htx with htx2
        subst htx2
        refine ⟨selectUtxos_take (amount + fee) (walletSorted w u) 0, ?_, not_lt.mp hsel, ?_, ?_⟩
        · dsimp only
          simp only [List.map_map]
          apply List.map_congr_left
          intro p hp
          simp [inputRef]
        · have h0t : (0:ℚ) < amount + fee := by linarith
          have hs := selectUtxos_strict (amount + fee) (walletSorted w u) 0 h0t
          rw [zero_add] at hs
          exact hs
        · dsimp only
          by_cases hch : 1/100000000 < rnd8 ((walletSelection w amount fee u).2 - (amount + fee))
          · rw [if_pos hch, if_pos hch]
            rfl
          · rw [if_neg hch, if_neg hch]

set_option maxRecDepth 4000 in
/-- Claim C3 counterexample: add_block commits a block containing a
non-coinbase transaction whose resolved input total (1) is strictly below
its output total (1 + 1/1000000000), because the fee check rounds the
deficit away. Value conservation as stated is therefore false. -/
theorem claim_C3_counterexample :
    (Chain.add_block testCrypto testVH [genesisBlock] c3utxo c3block).1 = true ∧
    c3bad ∈ c3block.transactions ∧
    c3bad.is_coinbase = false ∧
    inputSum c3utxo c3bad.inputs < outputSum c3bad.outputs := by
  refine ⟨by with_unfolding_all decide, ?_, by with_unfolding_all decide,
    by with_unfolding_all decide⟩
  show c3bad ∈ [c3cb, c3bad]
  exact List.mem_cons_of_mem c3cb (List.mem_cons_self c3bad [])

set_option maxRecDepth 4000 in
/-- Witness for the amended C3 at a concrete committed block. -/
theorem claim_C3_amended_witness :
    (Chain.add_block testCrypto testVH [genesisBlock] c3utxo c3goodBlock =
      (true, [genesisBlock] ++ [c3goodBlock], UTXOSet.update_from_block c3utxo c3goodBlock)) ∧
    (∃ temp : UTXOSet, (Chain.validate_transaction testCrypto temp c3good).1 = true ∧
      outputSum c3good.outputs ≤ inputSum temp c3good.inputs + 1/200000000) := by
  have hadd : Chain.add_block testCrypto testVH [genesisBlock] c3utxo c3goodBlock =
      (true, [genesisBlock] ++ [c3goodBlock], UTXOSet.update_from_block c3utxo c3goodBlock) := by
    with_unfolding_all decide
  have hmem : c3good ∈ c3goodBlock.transactions :=
    List.mem_cons_of_mem c3cb (List.mem_cons_self c3good [])
  exact ⟨hadd, claim_C3_amended testCrypto testVH [genesisBlock] c3utxo c3goodBlock
    ([genesisBlock] ++ [c3goodBlock]) (UTXOSet.update_from_block c3utxo c3goodBlock)
    hadd c3good hmem (by with_unfolding_all decide)⟩

set_option maxRecDepth 4000 in
/-- Witness for C2 at a concrete accepted transaction. -/
theorem claim_C2_witness :
    (c2tx.is_coinbase = false ∧ c2tx.inputs ≠ [] ∧ c2tx.outputs ≠ []) ∧
    Chain.validate_transaction testCrypto c2utxo c2tx =
      (true, rnd8 (inputSum c2utxo c2tx.inputs - outputSum c2tx.outputs)) := by
  refine ⟨⟨by with_unfolding_all decide, by with_unfolding_all decide,
    by with_unfolding_all decide⟩, ?_⟩
  exact ((claim_C2 testCrypto c2utxo c2tx (by with_unfolding_all decide)
      (by with_unfolding_all decide) (by with_unfolding_all decide)).1).mpr
    (by unfold C2Conds; with_unfolding_all decide)

/-- Witness for C4: the two input lists differ, their references agree, and
the computed ids coincide. -/
theorem claim_C4_witness :
    (Transaction.is_coinbase_data c4ins1 = false ∧
      c4ins1.map inputRef = c4ins2.map inputRef ∧ c4ins1 ≠ c4ins2) ∧
    Transaction.calculate_transaction_id testCrypto.sha256hex c4ins1 c4outs =
      Transaction.calculate_transaction_id testCrypto.sha256hex c4ins2 c4outs :=
  ⟨⟨by decide, by decide, by decide⟩,
    claim_C4 testCrypto c4ins1 c4ins2 c4outs (by decide) (by decide)⟩

set_option maxRecDepth 4000 in
/-- Witness for C6 at a concrete admitted transaction. -/
theorem claim_C6_witness :
    (Mempool.add_transaction testCrypto c6mp c6tx).1 = true ∧
    (Mempool.add_transaction testCrypto c6mp c6tx).2.pending_transactions = [("t6", c6tx)] := by
  have h := claim_C6 testCrypto c6mp c6tx
  have ht : (Mempool.add_transaction testCrypto c6mp c6tx).1 = true :=
    h.1.mpr (by unfold C6Conds; decide)
  refine ⟨ht, ?_⟩
  rw [h.2.1 ht]
  with_unfolding_all decide

/-- Witness for C7: the genesis state itself is reachable, and rebuild from
a non-empty starting set still reproduces the incrementally built set. -/
theorem claim_C7_witness :
    UTXOSet.rebuild [(("x", 0), ⟨1, "a"⟩)] [genesisBlock] =
      UTXOSet.update_from_block [] genesisBlock :=
  claim_C7 testCrypto testVH [genesisBlock] (UTXOSet.update_from_block [] genesisBlock)
    (Reachable.genesis genesisBlock) [(("x", 0), ⟨1, "a"⟩)]

set_option maxRecDepth 4000 in
/-- Witness for C8: with funds available and sufficient, the call does not
return None. -/
theorem claim_C8_witness :
    ((0:ℚ) < 3 ∧ (0:ℚ) ≤ 1 ∧ ∀ p ∈ c8utxo, 0 ≤ (Prod.snd p).amount) ∧
    Wallet.create_transaction testCrypto c8wallet "B" 3 1 c8utxo ≠ none := by
  refine ⟨⟨by norm_num, by norm_num, by with_unfolding_all decide⟩, ?_⟩
  have h := claim_C8 testCrypto c8wallet "B" 3 1 c8utxo (by norm_num) (by norm_num)
    (by with_unfolding_all decide)
  intro hn
  rcases h.1.mp hn with hav | hs
  · exact absurd hav (by with_unfolding_all decide)
  · exact absurd hs (by with_unfolding_all decide)

/-- Witness for C9: the parsed transaction keeps the stored id, and the
id-less dictionary fails. -/
theorem claim_C9_witness :
    c9dict.transaction_id = some c9tx.transaction_id ∧
    (∃ e, Transaction.from_dict testSha c9dictNoId = Except.error e) :=
  ⟨(claim_C9 testSha c9dict).1 c9tx rfl,
    (claim_C9 testSha c9dictNoId).2 (Or.inl rfl)⟩

/-- Witness for C10 at amount zero. -/
theorem claim_C10_witness :
    ((0:ℚ) ≤ 0 ∨ (1:ℚ) < 0) ∧
    Wallet.create_transaction testCrypto c8wallet "B" 0 1 c8utxo = none :=
  ⟨Or.inl le_rfl, claim_C10 testCrypto c8wallet "B" 0 1 c8utxo (Or.inl le_rfl)⟩
